import Mathlib

/-!
Verification of the document-request pipeline of the Bedrock document
summarizer (`doc_summary_lib.py`): filename sanitizer, PII redaction
filter, prompt builder, request assembler and the five task
orchestrators, shallowly embedded as executable Lean definitions.

Python strings are modelled as `String` (lists of characters), Python
dicts returned by the orchestrators as structures with `Option` fields
(a `none` field models an absent key), raised exceptions as
`Except String`, and the Bedrock runtime client as a function argument
returning `Except String RawResponse` (the error carries `str(e)` of the
underlying `ClientError`).  The character-class tests of the regular
expressions (`\w`, `\d`) are modelled with their ASCII semantics, which
coincide with Python's exactly on ASCII text but not beyond it (Python's
`re` counts non-ASCII letters and digits as word characters and digits);
every guardrail theorem that quantifies over arbitrary text therefore
carries an explicit ASCII hypothesis (`isAsciiChar`) marking the domain
on which the embedding is exact.
-/

namespace DocSummary

/-! ### Filename sanitizer (`sanitize_filename`, doc_summary_lib.py lines 28-57) -/

/-- The character class of `re.sub(r'[^a-zA-Z0-9 \-\(\)\[\]]', '_', ...)`:
alphanumeric, space, hyphen, parentheses, square brackets. -/
def allowedChar (c : Char) : Bool :=
  ('a' ≤ c && c ≤ 'z') || ('A' ≤ c && c ≤ 'Z') || ('0' ≤ c && c ≤ '9') ||
    c = ' ' || c = '-' || c = '(' || c = ')' || c = '[' || c = ']'

/-- One character of the first substitution: a disallowed character becomes `'_'`. -/
def replaceChar (c : Char) : Char :=
  if allowedChar c then c else '_'

/-- `re.sub(r'[^a-zA-Z0-9 \-\(\)\[\]]', '_', filename)`. -/
def replaceDisallowed (l : List Char) : List Char :=
  l.map replaceChar

/-- `re.sub(r' {2,}', ' ', s)`: every maximal run of two or more spaces becomes a
single space.  Implemented character-wise: a space directly followed by another
space is dropped, so exactly one space per run remains. -/
def collapseSpaces : List Char → List Char
  | [] => []
  | [c] => [c]
  | c :: d :: rest =>
    if c = ' ' && d = ' ' then collapseSpaces (d :: rest)
    else c :: collapseSpaces (d :: rest)

/-- Python `str.isspace` on the ASCII range (the only characters that can be
white space in the sanitizer's intermediate strings is `' '`). -/
def pyIsSpace (c : Char) : Bool :=
  c = ' ' || c = '\t' || c = '\n' || c = '\r' || c = '\x0b' || c = '\x0c'

/-- Remove trailing white space (the right half of Python `str.strip()`). -/
def dropTrailingSpaces : List Char → List Char
  | [] => []
  | c :: rest =>
    let r := dropTrailingSpaces rest
    if r.isEmpty && pyIsSpace c then [] else c :: r

/-- Python `str.strip()`: drop leading and trailing white space. -/
def pyStrip (l : List Char) : List Char :=
  dropTrailingSpaces (l.dropWhile pyIsSpace)

/-- `sanitize_filename` (doc_summary_lib.py lines 28-57): replace disallowed
characters by `'_'`, collapse space runs, strip, and fall back to
`"document.pdf"` on an empty (or all-stripped) input.  A Python `None`
argument is falsy like the empty string and is modelled by `""`. -/
def sanitize_filename (filename : String) : String :=
  if filename = "" then "document.pdf"
  else
    let sanitized := replaceDisallowed filename.data
    let sanitized := collapseSpaces sanitized
    let sanitized := pyStrip sanitized
    if sanitized.isEmpty then "document.pdf" else String.mk sanitized

/-- Two consecutive spaces occur somewhere in the list. -/
def hasDoubleSpace : List Char → Bool
  | [] => false
  | [_] => false
  | c :: d :: rest => (c = ' ' && d = ' ') || hasDoubleSpace (d :: rest)

/-- The stripped intermediate value of `sanitize_filename` (the value tested
against the empty string before the fallback). -/
def sanitizeCore (f : String) : List Char :=
  pyStrip (collapseSpaces (replaceDisallowed f.data))

/-! ### Content guardrails (`apply_guardrails`, doc_summary_lib.py lines 60-89)

The three sensitive patterns are compiled to matchers.  A matcher receives
the word-ness of the preceding character (for `\b`) and the remaining text,
and returns the length of the match starting there, if any.  `reSub` runs a
matcher over the text with Python's leftmost non-overlapping `re.findall` /
`re.sub` semantics, returning the matched substrings and the substituted
text at once. -/

/-- Python `\w` restricted to ASCII: letters, digits, underscore.  Python's
Unicode `\w` additionally counts non-ASCII letters and digits as word
characters, so this test (and the `\b` boundaries built on it) agrees with
Python exactly on ASCII text only; theorems quantifying over arbitrary
text carry an `isAsciiChar` hypothesis for this reason. -/
def isWordChar (c : Char) : Bool :=
  c.isAlphanum || c = '_'

/-- An ASCII character (code point below 128).  On text of such characters
the matchers below coincide exactly with Python's `re` on the source's
three patterns. -/
def isAsciiChar (c : Char) : Bool :=
  c.toNat < 128

/-- `\b` after the final character `last` of a match: the following text must
start with a character of the opposite word-ness (end of text counts as
non-word). -/
def tailBoundary (last : Char) (rest : List Char) : Bool :=
  match rest with
  | [] => isWordChar last
  | c :: _ => isWordChar last != isWordChar c

/-- `\b` after a match whose last character is a digit (SSN and card
patterns): the following text must start with a non-word character or end. -/
def endNonWord (rest : List Char) : Bool :=
  match rest with
  | [] => true
  | c :: _ => !isWordChar c

/-- The fixed shape `\d{3}-\d{2}-\d{4}` (11 characters). -/
def ssnShape : List Char → Bool
  | [a, b, c, d, e, f, g, h, i, j, k] =>
    a.isDigit && b.isDigit && c.isDigit && d = '-' && e.isDigit && f.isDigit &&
      g = '-' && h.isDigit && i.isDigit && j.isDigit && k.isDigit
  | _ => false

/-- Matcher of `r'\b\d{3}-\d{2}-\d{4}\b'`.  The first matched character is a
digit (a word character), so the leading `\b` holds exactly when the
preceding character is not a word character.  `Char.isDigit` is ASCII
`\d`; Python's Unicode `\d` also matches non-ASCII decimal digits, hence
the ASCII hypothesis on text-quantifying theorems. -/
def ssnMatch (w : Bool) (l : List Char) : Option Nat :=
  if !w && ssnShape (l.take 11) && endNonWord (l.drop 11) then some 11 else none

/-- Matcher of `r'\b\d{16}\b'` (16 consecutive digits, ASCII `\d` as in
`ssnMatch`). -/
def cardMatch (w : Bool) (l : List Char) : Option Nat :=
  if !w && (l.take 16).length = 16 && (l.take 16).all Char.isDigit &&
      endNonWord (l.drop 16) then some 16 else none

/-- Local-part class `[A-Za-z0-9._%+-]` of the email pattern. -/
def localClass (c : Char) : Bool :=
  c.isAlphanum || c = '.' || c = '_' || c = '%' || c = '+' || c = '-'

/-- Domain class `[A-Za-z0-9.-]` of the email pattern. -/
def domainClass (c : Char) : Bool :=
  c.isAlphanum || c = '.' || c = '-'

/-- Top-level-domain class `[A-Z|a-z]` of the email pattern (the `|` is part
of the class in the source's regex). -/
def tldClass (c : Char) : Bool :=
  ('A' ≤ c && c ≤ 'Z') || c = '|' || ('a' ≤ c && c ≤ 'z')

/-- Try `f n, f (n-1), ..., f 1` and return the first `some` — the
backtracking order of a greedy `+`/`{2,}` quantifier that matched `n`
characters at most. -/
def firstSome (f : Nat → Option Nat) : Nat → Option Nat
  | 0 => none
  | n + 1 =>
    match f (n + 1) with
    | some a => some a
    | none => firstSome f n

/-- Matcher of `r'\b[A-Za-z0-9._%+-]+@[A-Za-z0-9.-]+\.[A-Z|a-z]{2,}\b'`,
with the backtracking search of the three greedy quantifiers made explicit:
the local part, domain and TLD lengths are tried longest-first.  The two
`\b` tests use the ASCII `isWordChar`, exact on ASCII neighbours only. -/
def emailMatch (w : Bool) (l : List Char) : Option Nat :=
  match l with
  | [] => none
  | c :: _ =>
    if w == isWordChar c then none
    else
      firstSome (fun k =>
        match l.drop k with
        | '@' :: l2 =>
          firstSome (fun j =>
            match l2.drop j with
            | '.' :: l4 =>
              firstSome (fun m =>
                if 2 ≤ m && tailBoundary ((l4.take m).getLastD '.') (l4.drop m) then
                  some (k + 1 + j + 1 + m)
                else none) (l4.takeWhile tldClass).length
            | _ => none) (l2.takeWhile domainClass).length
        | _ => none) (l.takeWhile localClass).length

/-- One pass of `re.findall pattern text` together with `re.sub pattern repl
text`: scan left to right, at each position try the matcher (passing the
word-ness of the previous character for `\b`), consume a match whole and
emit the replacement, otherwise copy one character.  `fuel` bounds the
recursion and is instantiated with the text length, which one step of the
scan always decreases. -/
def reSubAux (m : Bool → List Char → Option Nat) (repl : List Char) :
    Nat → Bool → List Char → List (List Char) × List Char
  | 0, _, _ => ([], [])
  | _ + 1, _, [] => ([], [])
  | fuel + 1, w, c :: rest =>
    match m w (c :: rest) with
    | some (n + 1) =>
      let matched := (c :: rest).take (n + 1)
      let r := reSubAux m repl fuel (isWordChar (matched.getLastD c)) ((c :: rest).drop (n + 1))
      (matched :: r.1, repl ++ r.2)
    | _ =>
      let r := reSubAux m repl fuel (isWordChar c) rest
      (r.1, c :: r.2)

/-- The scan of `reSubAux` from an arbitrary preceding word-ness, with the
fuel it actually runs on (the text length). -/
def reSubW (m : Bool → List Char → Option Nat) (repl : List Char) (w : Bool) (l : List Char) :
    List (List Char) × List Char :=
  reSubAux m repl l.length w l

/-- `(re.findall p text, re.sub p repl text)` for one of the three patterns:
the scan starts at the beginning of the text, where `\b` sees a non-word
left context. -/
def reSub (m : Bool → List Char → Option Nat) (repl : List Char) (l : List Char) :
    List (List Char) × List Char :=
  reSubW m repl false l

/-- Result dict of `apply_guardrails`. -/
structure GuardrailResult where
  filtered_text : String
  redactions : List String
  action : String
  deriving DecidableEq, Repr

/-- `apply_guardrails` (doc_summary_lib.py lines 60-89): apply the SSN, card
and email patterns in order, each to the output of the previous pass; a pass
is substituted only when it found matches (substituting without matches
would be the identity anyway, mirroring the source's `if matches:` guard). -/
def apply_guardrails (text : String) : GuardrailResult :=
  let r1 := reSub ssnMatch "[SSN_REDACTED]".data text.data
  let t1 := if r1.1.isEmpty then text.data else r1.2
  let r2 := reSub cardMatch "[CARD_REDACTED]".data t1
  let t2 := if r2.1.isEmpty then t1 else r2.2
  let r3 := reSub emailMatch "[EMAIL_REDACTED]".data t2
  let t3 := if r3.1.isEmpty then t2 else r3.2
  let redactions := r1.1 ++ r2.1 ++ r3.1
  { filtered_text := String.mk t3
    redactions := redactions.map String.mk
    action := if redactions.isEmpty then "ALLOWED" else "FILTERED" }

/-- `needle` occurs as a contiguous substring of `hay`. -/
def containsSub (needle : List Char) : List Char → Bool
  | [] => needle.isPrefixOf []
  | c :: rest => needle.isPrefixOf (c :: rest) || containsSub needle rest

/-! ### Documents, requests, responses and the five task orchestrators -/

/-- A Streamlit upload handle: a name, the full byte content and a read
position.  `seek`/`read` follow the file-object semantics the orchestrators
rely on ("reset to start, then read all"). -/
structure File where
  name : String
  content : List Nat
  pos : Nat
  deriving DecidableEq, Repr

/-- `file.seek(n)`. -/
def fileSeek (f : File) (n : Nat) : File :=
  { f with pos := n }

/-- `file.read()`: the bytes from the current position to the end; the
position moves to the end. -/
def fileRead (f : File) : List Nat × File :=
  (f.content.drop f.pos, { f with pos := f.content.length })

/-- One element of a Converse message's `content` list. -/
inductive ContentBlock where
  | document (name : String) (format : String) (bytes : List Nat)
  | text (s : String)
  deriving DecidableEq, Repr

/-- One Converse message. -/
structure Message where
  role : String
  content : List ContentBlock
  deriving DecidableEq, Repr

/-- A full `bedrock_runtime.converse` request: model id, messages and the
inference configuration (`maxTokens`, `temperature`). -/
structure Request where
  modelId : String
  messages : List Message
  maxTokens : Nat
  temperature : ℚ
  deriving DecidableEq, Repr

/-- The parts of a Converse response the library reads: the text of each
content block of the output message, the usage token counts and the stop
reason. -/
structure RawResponse where
  contentTexts : List String
  inputTokens : Nat
  outputTokens : Nat
  stopReason : String
  deriving DecidableEq, Repr

/-- A result dict as returned by the orchestrators.  Each field models one
possible key; `none` models an absent key. -/
structure PyResult where
  summary : Option String := none
  analysis : Option String := none
  topics : Option String := none
  answer : Option String := none
  question : Option String := none
  model : Option String := none
  input_tokens : Option Nat := none
  output_tokens : Option Nat := none
  stop_reason : Option String := none
  deriving DecidableEq, Repr

/-- The Bedrock runtime client: one `converse` call.  An `error e` models a
`botocore` `ClientError` whose `str` is `e`. -/
def Client : Type :=
  Request → Except String RawResponse

/-- The `style_prompts` dict lookup `style_prompts.get(summary_style,
style_prompts["concise"])` of `summarize_pdf_document` (lines 106-113). -/
def promptForStyle (summary_style : String) : String :=
  if summary_style = "concise" then
    "Provide a concise summary of this document in 2-3 paragraphs."
  else if summary_style = "detailed" then
    "Provide a detailed and comprehensive summary of this document, covering all key points."
  else if summary_style = "bullet-points" then
    "Summarize this document using clear bullet points, highlighting the main ideas."
  else if summary_style = "executive" then
    "Provide an executive summary suitable for senior leadership, focusing on key insights and actionable items."
  else
    "Provide a concise summary of this document in 2-3 paragraphs."

/-- Read the document (seek to 0, read all) and assemble the single-message
request `[{document: {name, "pdf", bytes}}, {text: prompt}]` shared by all
orchestrators. -/
def buildDocRequest (pdf_file : File) (prompt : String) (model_id : String)
    (maxTokens : Nat) (temperature : ℚ) : Request × File :=
  let read := fileRead (fileSeek pdf_file 0)
  ({ modelId := model_id
     messages := [{ role := "user"
                    content := [.document (sanitize_filename pdf_file.name) "pdf" read.1,
                                .text prompt] }]
     maxTokens := maxTokens
     temperature := temperature },
   read.2)

/-- The request assembled by `summarize_pdf_document` (lines 104-144). -/
def summarize_request (pdf_file : File) (summary_style : String) (model_id : String) :
    Request × File :=
  buildDocRequest pdf_file (promptForStyle summary_style) model_id 4096 (1/2)

/-- The request assembled by `summarize_pdf_with_converse` (lines 175-205). -/
def converse_request (pdf_file : File) (prompt : String) (model_id : String) :
    Request × File :=
  buildDocRequest pdf_file prompt model_id 4096 (1/2)

/-- The request assembled by `analyze_document_sentiment` (lines 235-262). -/
def sentiment_request (pdf_file : File) (model_id : String) : Request × File :=
  buildDocRequest pdf_file
    "Analyze the sentiment and tone of this document. Provide:\n1. Overall sentiment (positive/negative/neutral)\n2. Key emotional tones\n3. Writing style"
    model_id 2048 (3/10)

/-- The request assembled by `extract_key_topics` (lines 284-311). -/
def topics_request (pdf_file : File) (num_topics : Nat) (model_id : String) :
    Request × File :=
  buildDocRequest pdf_file
    ("Extract the top " ++ toString num_topics ++
      " key topics or themes from this document. For each topic, provide a brief description.")
    model_id 2048 (3/10)

/-- The question transformation and request assembly of
`answer_questions_about_document` (lines 336-359): with guardrails enabled
the question is replaced by its filtered text when redactions were found;
the text part is `f"Based on this document, answer: {question}"`. -/
def qa_request (pdf_file : File) (question : String) (use_guardrails : Bool) (model_id : String) :
    (Request × File) × String :=
  let question :=
    if use_guardrails then
      let guardrail_result := apply_guardrails question
      if !guardrail_result.redactions.isEmpty then guardrail_result.filtered_text else question
    else question
  (buildDocRequest pdf_file ("Based on this document, answer: " ++ question) model_id 2048 (1/5),
   question)

/-- `summarize_pdf_document` (lines 92-160): assemble the request, call the
client once and normalize the response into the result dict; a `ClientError`
is re-raised as `Exception(f"Bedrock API error: {str(e)}")`, a missing
first content block as the generic wrap of the `IndexError`. -/
def summarize_pdf_document (pdf_file : File) (summary_style : String) (model_id : String)
    (client : Client) : Except String PyResult × File :=
  let rq := summarize_request pdf_file summary_style model_id
  (match client rq.1 with
   | .error e => .error ("Bedrock API error: " ++ e)
   | .ok response =>
     match response.contentTexts with
     | [] => .error "Error summarizing PDF document: list index out of range"
     | summary :: _ =>
       .ok { summary := some summary
             model := some model_id
             input_tokens := some response.inputTokens
             output_tokens := some response.outputTokens
             stop_reason := some response.stopReason },
   rq.2)

/-- `summarize_pdf_with_converse` (lines 163-221). -/
def summarize_pdf_with_converse (pdf_file : File) (prompt : String) (model_id : String)
    (client : Client) : Except String PyResult × File :=
  let rq := converse_request pdf_file prompt model_id
  (match client rq.1 with
   | .error e => .error ("Bedrock API error: " ++ e)
   | .ok response =>
     match response.contentTexts with
     | [] => .error "Error with custom PDF prompt: list index out of range"
     | summary :: _ =>
       .ok { summary := some summary
             model := some model_id
             input_tokens := some response.inputTokens
             output_tokens := some response.outputTokens
             stop_reason := some response.stopReason },
   rq.2)

/-- `analyze_document_sentiment` (lines 224-269): the result dict carries
only the analysis text and the model id; a `ClientError` is caught by the
single generic handler. -/
def analyze_document_sentiment (pdf_file : File) (model_id : String)
    (client : Client) : Except String PyResult × File :=
  let rq := sentiment_request pdf_file model_id
  (match client rq.1 with
   | .error e => .error ("Error analyzing sentiment: " ++ e)
   | .ok response =>
     match response.contentTexts with
     | [] => .error "Error analyzing sentiment: list index out of range"
     | analysis :: _ => .ok { analysis := some analysis, model := some model_id },
   rq.2)

/-- `extract_key_topics` (lines 272-318): the result dict carries only the
topics text and the model id. -/
def extract_key_topics (pdf_file : File) (num_topics : Nat) (model_id : String)
    (client : Client) : Except String PyResult × File :=
  let rq := topics_request pdf_file num_topics model_id
  (match client rq.1 with
   | .error e => .error ("Error extracting topics: " ++ e)
   | .ok response =>
     match response.contentTexts with
     | [] => .error "Error extracting topics: list index out of range"
     | topics :: _ => .ok { topics := some topics, model := some model_id },
   rq.2)

/-- `answer_questions_about_document` (lines 321-383): optionally filter the
question, assemble the request, call the client and normalize; with
guardrails enabled the answer is unconditionally replaced by its filtered
text.  The `chat_history` parameter of the source is never threaded into
the request and is omitted. -/
def answer_questions_about_document (pdf_file : File) (question : String) (model_id : String)
    (use_guardrails : Bool) (client : Client) : Except String PyResult × File :=
  let rqq := qa_request pdf_file question use_guardrails model_id
  (match client rqq.1.1 with
   | .error e => .error ("Error answering question: " ++ e)
   | .ok response =>
     match response.contentTexts with
     | [] => .error "Error answering question: list index out of range"
     | answer :: _ =>
       let answer := if use_guardrails then (apply_guardrails answer).filtered_text else answer
       .ok { answer := some answer
             question := some rqq.2
             model := some model_id
             input_tokens := some response.inputTokens
             output_tokens := some response.outputTokens },
   rqq.1.2)

/-- The texts of the text blocks of a request, in order. -/
def textParts (r : Request) : List String :=
  r.messages.flatMap fun msg =>
    msg.content.filterMap fun b =>
      match b with
      | .text s => some s
      | .document _ _ _ => none

/-- The byte payloads of the document blocks of a request, in order. -/
def documentBytes (r : Request) : List (List Nat) :=
  r.messages.flatMap fun msg =>
    msg.content.filterMap fun b =>
      match b with
      | .text _ => none
      | .document _ _ bytes => some bytes

/-- The input-token field of an orchestrator outcome, when the call
succeeded. -/
def resultInputTokens (r : Except String PyResult × File) : Option Nat :=
  match r.1 with
  | .ok res => res.input_tokens
  | .error _ => none

/-! ### Properties of the filename sanitizer -/

theorem hasDoubleSpace_tail {c : Char} {l : List Char}
    (h : hasDoubleSpace (c :: l) = false) : hasDoubleSpace l = false := by
  cases l with
  | nil => rfl
  | cons d rest => simp [hasDoubleSpace] at h; simp [h]

theorem collapseSpaces_head? (l : List Char) :
    (collapseSpaces l).head? = l.head? := by
  induction l with
  | nil => rfl
  | cons c rest ih =>
    cases rest with
    | nil => rfl
    | cons d r2 =>
      by_cases h : c = ' ' ∧ d = ' '
      · obtain ⟨hc, hd⟩ := h
        subst hc; subst hd
        simpa [collapseSpaces] using ih
      · have : (c = ' ' && d = ' ') = false := by
          rcases Decidable.em (c = ' ') with hc | hc
          · rcases Decidable.em (d = ' ') with hd | hd
            · exact absurd ⟨hc, hd⟩ h
            · simp [hd]
          · simp [hc]
        simp [collapseSpaces, this]

theorem collapseSpaces_ne_nil {l : List Char} (h : l ≠ []) :
    collapseSpaces l ≠ [] := by
  have := collapseSpaces_head? l
  intro hcontra
  rw [hcontra] at this
  cases l with
  | nil => exact h rfl
  | cons c rest => simp at this

theorem hasDoubleSpace_collapseSpaces (l : List Char) :
    hasDoubleSpace (collapseSpaces l) = false := by
  induction l with
  | nil => rfl
  | cons c rest ih =>
    cases rest with
    | nil => rfl
    | cons d r2 =>
      by_cases h : (c = ' ' && d = ' ') = true
      · simp only [collapseSpaces, h, if_pos]
        exact ih
      · have hb : (c = ' ' && d = ' ') = false := by
          cases hx : (c = ' ' && d = ' ') with
          | true => exact absurd hx h
          | false => rfl
        simp only [collapseSpaces, hb, Bool.false_eq_true, if_neg, not_false_iff]
        have hne : collapseSpaces (d :: r2) ≠ [] := collapseSpaces_ne_nil (by simp)
        have hhd : (collapseSpaces (d :: r2)).head? = some d := by
          simpa using collapseSpaces_head? (d :: r2)
        cases hcol : collapseSpaces (d :: r2) with
        | nil => exact absurd hcol hne
        | cons x xs =>
          rw [hcol] at hhd ih
          have hx : x = d := by simpa using hhd
          subst hx
          simp [hasDoubleSpace, hb, ih]

theorem mem_collapseSpaces {c : Char} {l : List Char}
    (h : c ∈ collapseSpaces l) : c ∈ l := by
  induction l with
  | nil => simpa [collapseSpaces] using h
  | cons a rest ih =>
    cases rest with
    | nil => simpa [collapseSpaces] using h
    | cons d r2 =>
      by_cases hb : (a = ' ' && d = ' ') = true
      · simp only [collapseSpaces, hb, if_pos] at h
        exact List.mem_cons_of_mem a (ih h)
      · have hb2 : (a = ' ' && d = ' ') = false := by
          cases hx : (a = ' ' && d = ' ') with
          | true => exact absurd hx hb
          | false => rfl
        simp only [collapseSpaces, hb2, Bool.false_eq_true, if_neg, not_false_iff] at h
        rcases List.mem_cons.mp h with h1 | h2
        · exact h1 ▸ List.mem_cons_self a _
        · exact List.mem_cons_of_mem a (ih h2)

theorem collapseSpaces_of_noDouble {l : List Char}
    (h : hasDoubleSpace l = false) : collapseSpaces l = l := by
  induction l with
  | nil => rfl
  | cons c rest ih =>
    cases rest with
    | nil => rfl
    | cons d r2 =>
      have h1 : (c = ' ' && d = ' ') = false := by
        simp only [hasDoubleSpace, Bool.or_eq_false_iff] at h
        exact h.1
      have h2 := hasDoubleSpace_tail h
      simp only [collapseSpaces, h1, Bool.false_eq_true, if_neg, not_false_iff]
      rw [ih h2]

theorem dropTrailingSpaces_head? {l : List Char} {x : Char}
    (h : (dropTrailingSpaces l).head? = some x) : l.head? = some x := by
  cases l with
  | nil => simp [dropTrailingSpaces] at h
  | cons c rest =>
    simp only [dropTrailingSpaces] at h
    by_cases hc : ((dropTrailingSpaces rest).isEmpty && pyIsSpace c) = true
    · simp [hc] at h
    · have hc2 : ((dropTrailingSpaces rest).isEmpty && pyIsSpace c) = false := by
        cases hx : ((dropTrailingSpaces rest).isEmpty && pyIsSpace c) with
        | true => exact absurd hx hc
        | false => rfl
      simp only [hc2, Bool.false_eq_true, if_neg, not_false_iff, List.head?_cons] at h
      simpa using h

theorem mem_dropTrailingSpaces {c : Char} {l : List Char}
    (h : c ∈ dropTrailingSpaces l) : c ∈ l := by
  induction l with
  | nil => simpa [dropTrailingSpaces] using h
  | cons a rest ih =>
    simp only [dropTrailingSpaces] at h
    by_cases hc : ((dropTrailingSpaces rest).isEmpty && pyIsSpace a) = true
    · simp [hc] at h
    · have hc2 : ((dropTrailingSpaces rest).isEmpty && pyIsSpace a) = false := by
        cases hx : ((dropTrailingSpaces rest).isEmpty && pyIsSpace a) with
        | true => exact absurd hx hc
        | false => rfl
      simp only [hc2, Bool.false_eq_true, if_neg, not_false_iff] at h
      rcases List.mem_cons.mp h with h1 | h2
      · exact h1 ▸ List.mem_cons_self a _
      · exact List.mem_cons_of_mem a (ih h2)

theorem getLast?_dropTrailingSpaces {l : List Char} {x : Char}
    (h : (dropTrailingSpaces l).getLast? = some x) : pyIsSpace x = false := by
  induction l with
  | nil => simp [dropTrailingSpaces] at h
  | cons a rest ih =>
    simp only [dropTrailingSpaces] at h
    by_cases hc : ((dropTrailingSpaces rest).isEmpty && pyIsSpace a) = true
    · simp [hc] at h
    · have hc2 : ((dropTrailingSpaces rest).isEmpty && pyIsSpace a) = false := by
        cases hx : ((dropTrailingSpaces rest).isEmpty && pyIsSpace a) with
        | true => exact absurd hx hc
        | false => rfl
      simp only [hc2, Bool.false_eq_true, if_neg, not_false_iff] at h
      cases hrest : dropTrailingSpaces rest with
      | nil =>
        rw [hrest] at h hc2
        simp only [List.getLast?_singleton] at h
        have hx : a = x := by simpa using h
        subst hx
        simpa [List.isEmpty] using hc2
      | cons y ys =>
        rw [hrest] at h
        rw [List.getLast?_cons_cons] at h
        exact ih (hrest ▸ h)

theorem hasDoubleSpace_dropTrailingSpaces {l : List Char}
    (h : hasDoubleSpace l = false) : hasDoubleSpace (dropTrailingSpaces l) = false := by
  induction l with
  | nil => rfl
  | cons a rest ih =>
    simp only [dropTrailingSpaces]
    by_cases hc : ((dropTrailingSpaces rest).isEmpty && pyIsSpace a) = true
    · simp [hc, hasDoubleSpace]
    · have hc2 : ((dropTrailingSpaces rest).isEmpty && pyIsSpace a) = false := by
        cases hx : ((dropTrailingSpaces rest).isEmpty && pyIsSpace a) with
        | true => exact absurd hx hc
        | false => rfl
      simp only [hc2, Bool.false_eq_true, if_neg, not_false_iff]
      have htail := ih (hasDoubleSpace_tail h)
      cases hrest : dropTrailingSpaces rest with
      | nil => simp [hasDoubleSpace]
      | cons y ys =>
        have hy : rest.head? = some y := dropTrailingSpaces_head? (by rw [hrest]; rfl)
        cases rest with
        | nil => simp [dropTrailingSpaces] at hrest
        | cons b r2 =>
          have hby : b = y := by simpa using hy
          subst hby
          simp only [hasDoubleSpace, Bool.or_eq_false_iff] at h
          rw [hrest] at htail
          simp [hasDoubleSpace, h.1, htail]

theorem dropTrailingSpaces_of_getLast? {l : List Char}
    (h : ∀ x, l.getLast? = some x → pyIsSpace x = false) :
    dropTrailingSpaces l = l := by
  induction l with
  | nil => rfl
  | cons a rest ih =>
    cases rest with
    | nil =>
      have := h a rfl
      simp [dropTrailingSpaces, this]
    | cons b r2 =>
      have hrec : dropTrailingSpaces (b :: r2) = b :: r2 := by
        apply ih
        intro x hx
        exact h x (by rw [List.getLast?_cons_cons]; exact hx)
      have hstep : dropTrailingSpaces (a :: b :: r2) =
          if (dropTrailingSpaces (b :: r2)).isEmpty && pyIsSpace a then []
          else a :: dropTrailingSpaces (b :: r2) := rfl
      rw [hstep, hrec]
      simp

theorem hasDoubleSpace_dropWhile {p : Char → Bool} {l : List Char}
    (h : hasDoubleSpace l = false) : hasDoubleSpace (l.dropWhile p) = false := by
  induction l with
  | nil => simpa using h
  | cons a rest ih =>
    rw [List.dropWhile_cons]
    by_cases hp : p a = true
    · simp only [hp, if_pos]
      exact ih (hasDoubleSpace_tail h)
    · simp only [hp, if_neg, not_false_iff]
      simpa using h

theorem head?_dropWhile_not {p : Char → Bool} {l : List Char} {x : Char}
    (h : (l.dropWhile p).head? = some x) : p x = false := by
  induction l with
  | nil => simp [List.dropWhile] at h
  | cons a rest ih =>
    rw [List.dropWhile_cons] at h
    by_cases hp : p a = true
    · simp only [hp, if_pos] at h
      exact ih h
    · simp only [hp, if_neg, not_false_iff, List.head?_cons] at h
      have : a = x := by simpa using h
      subst this
      cases hx : p a with
      | true => exact absurd hx hp
      | false => rfl

theorem mem_dropWhile {p : Char → Bool} {c : Char} {l : List Char}
    (h : c ∈ l.dropWhile p) : c ∈ l := by
  induction l with
  | nil => simpa using h
  | cons a rest ih =>
    rw [List.dropWhile_cons] at h
    by_cases hp : p a = true
    · simp only [hp, if_pos] at h
      exact List.mem_cons_of_mem a (ih h)
    · simp only [hp, if_neg, not_false_iff] at h
      exact h

theorem dropWhile_of_head? {p : Char → Bool} {l : List Char}
    (h : ∀ x, l.head? = some x → p x = false) : l.dropWhile p = l := by
  cases l with
  | nil => rfl
  | cons a rest =>
    have := h a rfl
    simp [List.dropWhile_cons, this]

theorem mem_pyStrip {c : Char} {l : List Char} (h : c ∈ pyStrip l) : c ∈ l :=
  mem_dropWhile (mem_dropTrailingSpaces h)

theorem head?_pyStrip {l : List Char} {x : Char}
    (h : (pyStrip l).head? = some x) : pyIsSpace x = false :=
  head?_dropWhile_not (dropTrailingSpaces_head? h)

theorem getLast?_pyStrip {l : List Char} {x : Char}
    (h : (pyStrip l).getLast? = some x) : pyIsSpace x = false :=
  getLast?_dropTrailingSpaces h

theorem hasDoubleSpace_pyStrip {l : List Char}
    (h : hasDoubleSpace l = false) : hasDoubleSpace (pyStrip l) = false :=
  hasDoubleSpace_dropTrailingSpaces (hasDoubleSpace_dropWhile h)

theorem pyStrip_of_ends {l : List Char}
    (h1 : ∀ x, l.head? = some x → pyIsSpace x = false)
    (h2 : ∀ x, l.getLast? = some x → pyIsSpace x = false) :
    pyStrip l = l := by
  unfold pyStrip
  rw [dropWhile_of_head? h1]
  exact dropTrailingSpaces_of_getLast? h2

theorem mem_replaceDisallowed {c : Char} {l : List Char}
    (h : c ∈ replaceDisallowed l) : allowedChar c = true ∨ c = '_' := by
  rcases List.mem_map.mp h with ⟨x, _, hx⟩
  unfold replaceChar at hx
  by_cases ha : allowedChar x = true
  · rw [if_pos ha] at hx
    exact Or.inl (hx ▸ ha)
  · rw [if_neg ha] at hx
    exact Or.inr hx.symm

theorem replaceChar_eq_space {c : Char} : replaceChar c = ' ' ↔ c = ' ' := by
  unfold replaceChar
  by_cases ha : allowedChar c = true
  · rw [if_pos ha]
  · rw [if_neg ha]
    constructor
    · intro h; exact absurd h (by decide)
    · intro h; subst h; exact absurd (by decide : allowedChar ' ' = true) ha

theorem hasDoubleSpace_replaceDisallowed {l : List Char}
    (h : hasDoubleSpace l = false) :
    hasDoubleSpace (replaceDisallowed l) = false := by
  induction l with
  | nil => rfl
  | cons a rest ih =>
    cases rest with
    | nil => rfl
    | cons b r2 =>
      simp only [hasDoubleSpace, Bool.or_eq_false_iff] at h
      have ih2 := ih h.2
      have h1 : (replaceChar a = ' ' && replaceChar b = ' ') = false := by
        rcases Decidable.em (replaceChar a = ' ') with hra | hra
        · rcases Decidable.em (replaceChar b = ' ') with hrb | hrb
          · exfalso
            have ha := replaceChar_eq_space.mp hra
            have hb := replaceChar_eq_space.mp hrb
            rw [ha, hb] at h
            simp at h
          · simp [hrb]
        · simp [hra]
      show hasDoubleSpace (replaceChar a :: replaceChar b :: replaceDisallowed r2) = false
      have ih3 : hasDoubleSpace (replaceChar b :: replaceDisallowed r2) = false := ih2
      simp [hasDoubleSpace, h1, ih3]

theorem replaceDisallowed_of_allowed {l : List Char}
    (h : ∀ c ∈ l, allowedChar c = true ∨ c = '_') :
    replaceDisallowed l = l := by
  induction l with
  | nil => rfl
  | cons a rest ih =>
    have ha := h a (List.mem_cons_self a rest)
    have hrc : replaceChar a = a := by
      rcases ha with ha | ha
      · simp [replaceChar, ha]
      · subst ha; rfl
    show replaceChar a :: replaceDisallowed rest = a :: rest
    rw [hrc, ih fun c hc => h c (List.mem_cons_of_mem a hc)]

theorem sanitize_filename_eq_core {f : String} (h0 : f ≠ "")
    (h1 : sanitizeCore f ≠ []) :
    sanitize_filename f = String.mk (sanitizeCore f) := by
  have hstep : sanitize_filename f =
      if f = "" then "document.pdf"
      else if (sanitizeCore f).isEmpty = true then "document.pdf"
      else String.mk (sanitizeCore f) := rfl
  rw [hstep, if_neg h0]
  have hne : (sanitizeCore f).isEmpty = false := by
    cases hsc : sanitizeCore f with
    | nil => exact absurd hsc h1
    | cons x xs => rfl
  rw [hne]
  simp

theorem sanitize_filename_shape (f : String) :
    sanitize_filename f = "document.pdf" ∨
      (f ≠ "" ∧ sanitizeCore f ≠ [] ∧ sanitize_filename f = String.mk (sanitizeCore f)) := by
  by_cases h0 : f = ""
  · subst h0; exact Or.inl rfl
  · by_cases h1 : sanitizeCore f = []
    · left
      have hstep : sanitize_filename f =
          if f = "" then "document.pdf"
          else if (sanitizeCore f).isEmpty = true then "document.pdf"
          else String.mk (sanitizeCore f) := rfl
      rw [hstep, if_neg h0, h1]
      rfl
    · exact Or.inr ⟨h0, h1, sanitize_filename_eq_core h0 h1⟩

theorem allowedChar_of_pyIsSpace {y : Char} (ha : allowedChar y = true)
    (hs : pyIsSpace y = true) : y = ' ' := by
  simp only [pyIsSpace, Bool.or_eq_true, decide_eq_true_eq] at hs
  rcases hs with ((((h | h) | h) | h) | h) | h
  · exact h
  all_goals (subst h; exact absurd ha (by decide))

theorem pyIsSpace_replaceChar {x : Char} (hx : x ≠ ' ') :
    pyIsSpace (replaceChar x) = false := by
  unfold replaceChar
  by_cases ha : allowedChar x = true
  · rw [if_pos ha]
    cases hps : pyIsSpace x with
    | false => rfl
    | true => exact absurd (allowedChar_of_pyIsSpace ha hps) hx
  · rw [if_neg ha]
    decide

/-- Claim C2 (code bug witness): on the input `"a.b"` the sanitizer returns
`"a_b"`, which contains the underscore character — a character outside the
allowed set `{A-Z, a-z, 0-9, space, -, (, ), [, ]}` that the function's own
documentation (and the claim) promise for its output. -/
theorem sanitize_filename_emits_underscore :
    sanitize_filename "a.b" = "a_b" ∧ allowedChar '_' = false ∧
      '_' ∈ (sanitize_filename "a.b").data := by
  decide

/-- Claim C6: the sanitizer is a total function that (a) maps the empty
(or null) input to `"document.pdf"`, (b) maps every input whose processed
form strips to nothing to `"document.pdf"`, (c) otherwise returns a
non-empty string whose characters are all allowed or `'_'` (each
disallowed character having been replaced by `'_'`), with no two
consecutive spaces and no leading or trailing space, and (d) on inputs
that already have no space runs and no space at either end it is exactly
the character-wise replacement map. -/
theorem sanitize_filename_contract (f : String) :
    (f = "" → sanitize_filename f = "document.pdf") ∧
    (sanitizeCore f = [] → sanitize_filename f = "document.pdf") ∧
    (sanitize_filename f = "document.pdf" ∨
      ((sanitize_filename f).data ≠ [] ∧
       (∀ c ∈ (sanitize_filename f).data, allowedChar c = true ∨ c = '_') ∧
       hasDoubleSpace (sanitize_filename f).data = false ∧
       (sanitize_filename f).data.head? ≠ some ' ' ∧
       (sanitize_filename f).data.getLast? ≠ some ' ')) ∧
    ((f ≠ "" ∧ hasDoubleSpace f.data = false ∧
        f.data.head? ≠ some ' ' ∧ f.data.getLast? ≠ some ' ') →
      (sanitize_filename f).data = f.data.map replaceChar) := by
  refine ⟨fun h0 => by rw [h0]; rfl, ?_, ?_, ?_⟩
  · intro h1
    rcases sanitize_filename_shape f with h | ⟨_, hne, _⟩
    · exact h
    · exact absurd h1 hne
  · rcases sanitize_filename_shape f with h | ⟨h0, hne, heq⟩
    · exact Or.inl h
    · right
      rw [heq]
      refine ⟨hne, ?_, ?_, ?_, ?_⟩
      · intro c hc
        exact mem_replaceDisallowed (mem_collapseSpaces (mem_pyStrip hc))
      · exact hasDoubleSpace_pyStrip (hasDoubleSpace_collapseSpaces _)
      · intro hcontra
        exact absurd (head?_pyStrip hcontra) (by decide)
      · intro hcontra
        exact absurd (getLast?_pyStrip hcontra) (by decide)
  · rintro ⟨h0, hnd, hhd, hlast⟩
    have hl : replaceDisallowed f.data = f.data.map replaceChar := rfl
    have hnd2 : hasDoubleSpace (replaceDisallowed f.data) = false :=
      hasDoubleSpace_replaceDisallowed hnd
    have hcol : collapseSpaces (replaceDisallowed f.data) = replaceDisallowed f.data :=
      collapseSpaces_of_noDouble hnd2
    have hhd2 : ∀ x, (replaceDisallowed f.data).head? = some x → pyIsSpace x = false := by
      intro x hx
      unfold replaceDisallowed at hx
      rw [List.head?_map] at hx
      cases hfd : f.data.head? with
      | none => rw [hfd] at hx; simp at hx
      | some y =>
        rw [hfd] at hx
        have hxy : replaceChar y = x := by simpa using hx
        have hy : y ≠ ' ' := fun hcon => hhd (hcon ▸ hfd)
        exact hxy ▸ pyIsSpace_replaceChar hy
    have hlast2 : ∀ x, (replaceDisallowed f.data).getLast? = some x → pyIsSpace x = false := by
      intro x hx
      unfold replaceDisallowed at hx
      rw [List.getLast?_map] at hx
      cases hfd : f.data.getLast? with
      | none => rw [hfd] at hx; simp at hx
      | some y =>
        rw [hfd] at hx
        have hxy : replaceChar y = x := by simpa using hx
        have hy : y ≠ ' ' := fun hcon => hlast (hcon ▸ hfd)
        exact hxy ▸ pyIsSpace_replaceChar hy
    have hstrip : pyStrip (replaceDisallowed f.data) = replaceDisallowed f.data :=
      pyStrip_of_ends hhd2 hlast2
    have hcore : sanitizeCore f = f.data.map replaceChar := by
      unfold sanitizeCore
      rw [hcol, hstrip, hl]
    have hdata : f.data ≠ [] := by
      intro hcon
      exact h0 (by cases f; simp_all)
    have hcne : sanitizeCore f ≠ [] := by
      rw [hcore]
      simpa using hdata
    rw [sanitize_filename_eq_core h0 hcne]
    rw [show (String.mk (sanitizeCore f)).data = sanitizeCore f from rfl, hcore]

/-- Claim C6 witness: the contract evaluated at the concrete input
`"a.b"`, whose sanitized form is the character-wise replacement map. -/
theorem sanitize_filename_contract_witness :
    (sanitize_filename "a.b").data = "a.b".data.map replaceChar :=
  (sanitize_filename_contract "a.b").2.2.2 ⟨by decide, by decide, by decide, by decide⟩

/-- Claim C10 (counterexample): the sanitizer is not idempotent — the empty
string sanitizes to the fallback `"document.pdf"`, which itself sanitizes
to `"document_pdf"`. -/
theorem sanitize_filename_not_idempotent :
    sanitize_filename (sanitize_filename "") ≠ sanitize_filename "" := by
  decide

/-- Claim C10 (amended): the sanitizer is idempotent on every input whose
sanitization is not the fallback `"document.pdf"` (the fallback itself
re-sanitizes to `"document_pdf"` because of its dot). -/
theorem sanitize_filename_idempotent (f : String)
    (h : sanitize_filename f ≠ "document.pdf") :
    sanitize_filename (sanitize_filename f) = sanitize_filename f := by
  rcases sanitize_filename_shape f with hfall | ⟨h0, hne, heq⟩
  · exact absurd hfall h
  · rw [heq]
    set core := sanitizeCore f with hcoredef
    have hdata : (String.mk core).data = core := rfl
    have hgne : String.mk core ≠ "" := by
      intro hcon
      apply hne
      have : (String.mk core).data = ("" : String).data := by rw [hcon]
      simpa using this
    have hallowed : ∀ c ∈ core, allowedChar c = true ∨ c = '_' := by
      intro c hc
      exact mem_replaceDisallowed (mem_collapseSpaces (mem_pyStrip hc))
    have hrepl : replaceDisallowed core = core :=
      replaceDisallowed_of_allowed hallowed
    have hnd : hasDoubleSpace core = false :=
      hasDoubleSpace_pyStrip (hasDoubleSpace_collapseSpaces _)
    have hcol : collapseSpaces core = core := collapseSpaces_of_noDouble hnd
    have hstrip : pyStrip core = core := by
      apply pyStrip_of_ends
      · intro x hx
        exact head?_pyStrip hx
      · intro x hx
        exact getLast?_pyStrip hx
    have hcore2 : sanitizeCore (String.mk core) = core := by
      unfold sanitizeCore
      rw [hdata, hrepl, hcol, hstrip]
    have hcne2 : sanitizeCore (String.mk core) ≠ [] := by rw [hcore2]; exact hne
    rw [sanitize_filename_eq_core hgne hcne2, hcore2]

/-- Claim C10 witness: idempotence applied at the concrete non-fallback
input `"abc"`. -/
theorem sanitize_filename_idempotent_witness :
    sanitize_filename (sanitize_filename "abc") = sanitize_filename "abc" :=
  sanitize_filename_idempotent "abc" (by decide)

/-! ### Generic properties of the pattern scanner -/

theorem reSubAux_fuel {m : Bool → List Char → Option Nat} {repl : List Char} :
    ∀ (f1 : Nat) (f2 : Nat) (w : Bool) (l : List Char), l.length ≤ f1 → l.length ≤ f2 →
      reSubAux m repl f1 w l = reSubAux m repl f2 w l := by
  intro f1
  induction f1 with
  | zero =>
    intro f2 w l h1 _
    have : l = [] := List.eq_nil_of_length_eq_zero (Nat.le_zero.mp h1)
    subst this
    cases f2 <;> rfl
  | succ f1 ih =>
    intro f2 w l h1 h2
    cases l with
    | nil => cases f2 <;> rfl
    | cons c rest =>
      cases f2 with
      | zero => simp at h2
      | succ f2 =>
        cases hm : m w (c :: rest) with
        | none =>
          simp only [reSubAux, hm]
          rw [ih f2 (isWordChar c) rest (by simpa using h1) (by simpa using h2)]
        | some n =>
          cases n with
          | zero =>
            simp only [reSubAux, hm]
            rw [ih f2 (isWordChar c) rest (by simpa using h1) (by simpa using h2)]
          | succ n =>
            simp only [List.length_cons] at h1 h2
            simp only [reSubAux, hm]
            have hlen : ((c :: rest).drop (n + 1)).length ≤ f1 := by
              rw [List.length_drop]
              simp only [List.length_cons]
              omega
            have hlen2 : ((c :: rest).drop (n + 1)).length ≤ f2 := by
              rw [List.length_drop]
              simp only [List.length_cons]
              omega
            rw [ih f2 _ _ hlen hlen2]

theorem reSubW_nil {m : Bool → List Char → Option Nat} {repl : List Char} {w : Bool} :
    reSubW m repl w [] = ([], []) := rfl

theorem reSubW_cons_none {m : Bool → List Char → Option Nat} {repl : List Char}
    {w : Bool} {c : Char} {rest : List Char} (hm : m w (c :: rest) = none) :
    reSubW m repl w (c :: rest) =
      ((reSubW m repl (isWordChar c) rest).1,
        c :: (reSubW m repl (isWordChar c) rest).2) := by
  show reSubAux m repl (rest.length + 1) w (c :: rest) = _
  simp only [reSubAux, hm]
  rfl

theorem reSubW_cons_match {m : Bool → List Char → Option Nat} {repl : List Char}
    {w : Bool} {c : Char} {rest : List Char} {n : Nat}
    (hm : m w (c :: rest) = some (n + 1)) :
    reSubW m repl w (c :: rest) =
      (((c :: rest).take (n + 1)) ::
          (reSubW m repl (isWordChar (((c :: rest).take (n + 1)).getLastD c))
            ((c :: rest).drop (n + 1))).1,
        repl ++ (reSubW m repl (isWordChar (((c :: rest).take (n + 1)).getLastD c))
            ((c :: rest).drop (n + 1))).2) := by
  show reSubAux m repl (rest.length + 1) w (c :: rest) = _
  simp only [reSubAux, hm]
  rw [reSubAux_fuel rest.length ((c :: rest).drop (n + 1)).length _ _
    (by rw [List.length_drop]; simp only [List.length_cons]; omega) (le_refl _)]
  rfl

theorem isPrefixOf_append (n s : List Char) : n.isPrefixOf (n ++ s) = true := by
  induction n with
  | nil => simp [List.isPrefixOf]
  | cons a n2 ih => simpa [List.isPrefixOf] using ih

theorem eq_append_of_isPrefixOf :
    ∀ {n l : List Char}, n.isPrefixOf l = true → ∃ s, l = n ++ s := by
  intro n
  induction n with
  | nil => exact fun {l} _ => ⟨l, rfl⟩
  | cons a n2 ih =>
    intro l h
    cases l with
    | nil => simp [List.isPrefixOf] at h
    | cons b l2 =>
      simp only [List.isPrefixOf, Bool.and_eq_true, beq_iff_eq] at h
      obtain ⟨hab, hrest⟩ := h
      obtain ⟨s, hs⟩ := ih hrest
      exact ⟨s, by rw [hab, hs]; rfl⟩

theorem containsSub_nil_left (l : List Char) : containsSub [] l = true := by
  cases l <;> simp [containsSub, List.isPrefixOf]

theorem containsSub_cons {n : List Char} {l : List Char} (c : Char)
    (h : containsSub n l = true) : containsSub n (c :: l) = true := by
  simp [containsSub, h]

theorem containsSub_self_append (n s : List Char) : containsSub n (n ++ s) = true := by
  cases n with
  | nil => exact containsSub_nil_left s
  | cons a n2 =>
    show containsSub (a :: n2) (a :: (n2 ++ s)) = true
    simp [containsSub, isPrefixOf_append (a :: n2) s]

theorem containsSub_append_left {n : List Char} (x : List Char) {l : List Char}
    (h : containsSub n l = true) : containsSub n (x ++ l) = true := by
  induction x with
  | nil => exact h
  | cons c x2 ih => exact containsSub_cons c ih

theorem exists_of_containsSub :
    ∀ {l n : List Char}, containsSub n l = true → ∃ a b, l = a ++ n ++ b := by
  intro l
  induction l with
  | nil =>
    intro n h
    simp only [containsSub] at h
    cases n with
    | nil => exact ⟨[], [], rfl⟩
    | cons a n2 => simp [List.isPrefixOf] at h
  | cons c rest ih =>
    intro n h
    simp only [containsSub, Bool.or_eq_true] at h
    rcases h with h | h
    · obtain ⟨s, hs⟩ := eq_append_of_isPrefixOf h
      exact ⟨[], s, by simpa using hs⟩
    · obtain ⟨a, b, hab⟩ := ih h
      exact ⟨c :: a, b, by simp [hab]⟩

theorem reSubW_matches_token {m : Bool → List Char → Option Nat} {repl : List Char}
    (hG0 : ∀ w l, m w l ≠ some 0) :
    ∀ (N : Nat) (l : List Char) (w : Bool), l.length ≤ N →
      (reSubW m repl w l).1 ≠ [] → containsSub repl (reSubW m repl w l).2 = true := by
  intro N
  induction N with
  | zero =>
    intro l w h1 h2
    have : l = [] := List.eq_nil_of_length_eq_zero (Nat.le_zero.mp h1)
    subst this
    exact absurd rfl h2
  | succ N ih =>
    intro l w h1 h2
    cases l with
    | nil => exact absurd rfl h2
    | cons c rest =>
      cases hm : m w (c :: rest) with
      | none =>
        rw [reSubW_cons_none hm] at h2 ⊢
        exact containsSub_cons c (ih rest (isWordChar c) (by simpa using h1) h2)
      | some n =>
        cases n with
        | zero => exact absurd hm (hG0 w (c :: rest))
        | succ n =>
          rw [reSubW_cons_match hm]
          exact containsSub_self_append repl _

theorem reSubW_append_none {m : Bool → List Char → Option Nat} {repl : List Char} :
    ∀ (t : List Char) (b : List Char) (w w2 : Bool),
      (∀ i w3, i < t.length → m w3 (t.drop i ++ b) = none) →
      (t = [] → w2 = w) →
      (∀ c, t.getLast? = some c → w2 = isWordChar c) →
      reSubW m repl w (t ++ b) = ((reSubW m repl w2 b).1, t ++ (reSubW m repl w2 b).2) := by
  intro t
  induction t with
  | nil =>
    intro b w w2 _ hw _
    rw [hw rfl]
    rfl
  | cons c t2 ih =>
    intro b w w2 hnone hw hlast
    have h0 : m w ((c :: t2) ++ b) = none := by
      have := hnone 0 w (by simp)
      simpa using this
    rw [show (c :: t2) ++ b = c :: (t2 ++ b) from rfl] at h0 ⊢
    rw [reSubW_cons_none h0]
    have ih2 := ih b (isWordChar c) w2
      (fun i w3 hi => by
        have := hnone (i + 1) w3 (by simpa using Nat.succ_lt_succ hi)
        simpa using this)
      (fun ht2 => by
        subst ht2
        exact hlast c rfl)
      (fun d hd => by
        apply hlast
        cases t2 with
        | nil => simp at hd
        | cons e t3 => rw [List.getLast?_cons_cons]; exact hd)
    rw [ih2]
    rfl

theorem reSubW_keeps_token {m : Bool → List Char → Option Nat} {repl : List Char}
    {tokH : Char} {tokT : List Char}
    (hG0 : ∀ w l, m w l ≠ some 0)
    (hG1 : ∀ w l n, m w l = some n → tokH ∉ l.take n)
    (hH2 : ∀ w b, reSubW m repl w (tokT ++ b) =
      ((reSubW m repl false b).1, tokT ++ (reSubW m repl false b).2)) :
    ∀ (N : Nat) (l : List Char) (w : Bool) (a b : List Char), l.length ≤ N →
      l = a ++ (tokH :: tokT) ++ b →
      containsSub (tokH :: tokT) (reSubW m repl w l).2 = true := by
  intro N
  induction N with
  | zero =>
    intro l w a b h1 hsplit
    exfalso
    subst hsplit
    simp at h1
  | succ N ih =>
    intro l w a b h1 hsplit
    cases hm : m w l with
    | some n =>
      cases n with
      | zero => exact absurd hm (hG0 w l)
      | succ n =>
        by_cases hn : n + 1 ≤ a.length
        · cases l with
          | nil => exact absurd hsplit (by simp)
          | cons c rest =>
            rw [reSubW_cons_match hm]
            have hdrop : (c :: rest).drop (n + 1) = a.drop (n + 1) ++ (tokH :: tokT) ++ b := by
              rw [hsplit, List.append_assoc, List.drop_append_of_le_length hn,
                List.append_assoc]
            have hlen : ((c :: rest).drop (n + 1)).length ≤ N := by
              rw [List.length_drop]
              have := h1
              simp only [List.length_cons] at this ⊢
              omega
            have := ih ((c :: rest).drop (n + 1))
              (isWordChar (((c :: rest).take (n + 1)).getLastD c))
              (a.drop (n + 1)) b hlen (by rw [hdrop, List.append_assoc])
            exact containsSub_append_left repl this
        · exfalso
          apply hG1 w l (n + 1) hm
          have hget : l[a.length]? = some tokH := by
            rw [hsplit, List.append_assoc]
            rw [List.getElem?_append_right (le_refl a.length)]
            simp
          have : (l.take (n + 1))[a.length]? = some tokH := by
            rw [List.getElem?_take]
            rw [if_pos (by omega)]
            exact hget
          exact List.getElem?_mem this
    | none =>
      cases a with
      | nil =>
        have hl : l = tokH :: (tokT ++ b) := by simpa using hsplit
        subst hl
        rw [reSubW_cons_none hm, hH2]
        exact containsSub_self_append (tokH :: tokT) _
      | cons c a2 =>
        have hl : l = c :: (a2 ++ (tokH :: tokT) ++ b) := by simpa [List.append_assoc] using hsplit
        subst hl
        rw [reSubW_cons_none hm]
        refine containsSub_cons c (ih _ (isWordChar c) a2 b ?_ rfl)
        simpa using h1

/-! ### Properties of the three matchers -/

theorem ssnMatch_ne_some_zero (w : Bool) (l : List Char) : ssnMatch w l ≠ some 0 := by
  unfold ssnMatch
  by_cases h : (!w && ssnShape (l.take 11) && endNonWord (l.drop 11)) = true
  · rw [if_pos h]; simp
  · rw [if_neg h]; simp

theorem ssnMatch_fires (v : List Char) (hv : ∀ c, v.head? = some c → isWordChar c = false) :
    ssnMatch false ("123-45-6789".data ++ v) = some 11 := by
  unfold ssnMatch
  have htake : ("123-45-6789".data ++ v).take 11 = "123-45-6789".data := by
    have := List.take_left "123-45-6789".data v
    simpa using this
  have hdrop : ("123-45-6789".data ++ v).drop 11 = v := by
    have := List.drop_left "123-45-6789".data v
    simpa using this
  rw [htake, hdrop]
  have hshape : ssnShape "123-45-6789".data = true := by decide
  have hend : endNonWord v = true := by
    cases v with
    | nil => rfl
    | cons c rest =>
      have := hv c rfl
      simp [endNonWord, this]
  rw [hshape, hend]
  rfl

theorem ssn_scan_finds {repl : List Char} :
    ∀ (u : List Char) (w : Bool) (v : List Char),
      (u = [] → w = false) →
      (∀ c, u.getLast? = some c → isWordChar c = false) →
      (∀ c, v.head? = some c → isWordChar c = false) →
      (reSubW ssnMatch repl w (u ++ "123-45-6789".data ++ v)).1 ≠ [] := by
  intro u
  induction u with
  | nil =>
    intro w v hw _ hv
    rw [hw rfl]
    have hm := ssnMatch_fires v hv
    have hm2 : ssnMatch false (([] : List Char) ++ "123-45-6789".data ++ v) = some (10 + 1) := by
      simpa using hm
    cases hl : ([] : List Char) ++ "123-45-6789".data ++ v with
    | nil => simp at hl
    | cons c rest =>
      rw [hl] at hm2
      rw [reSubW_cons_match hm2]
      simp
  | cons c u2 ih =>
    intro w v _ hu hv
    rw [show (c :: u2) ++ "123-45-6789".data ++ v = c :: (u2 ++ "123-45-6789".data ++ v) by
      simp]
    cases hm : ssnMatch w (c :: (u2 ++ "123-45-6789".data ++ v)) with
    | some n =>
      cases n with
      | zero => exact absurd hm (ssnMatch_ne_some_zero _ _)
      | succ n =>
        rw [reSubW_cons_match hm]
        simp
    | none =>
      rw [reSubW_cons_none hm]
      apply ih (isWordChar c) v
      · intro hu2
        subst hu2
        exact hu c rfl
      · intro d hd
        apply hu
        cases u2 with
        | nil => simp at hd
        | cons e u3 => rw [List.getLast?_cons_cons]; exact hd
      · exact hv

theorem cardMatch_ne_some_zero (w : Bool) (l : List Char) : cardMatch w l ≠ some 0 := by
  unfold cardMatch
  by_cases h : (!w && (l.take 16).length = 16 && (l.take 16).all Char.isDigit &&
      endNonWord (l.drop 16)) = true
  · rw [if_pos h]; simp
  · rw [if_neg h]; simp

theorem cardMatch_not_bracket {w : Bool} {l : List Char} {n : Nat}
    (hm : cardMatch w l = some n) : '[' ∉ l.take n := by
  unfold cardMatch at hm
  by_cases h : (!w && (l.take 16).length = 16 && (l.take 16).all Char.isDigit &&
      endNonWord (l.drop 16)) = true
  · rw [if_pos h] at hm
    have hn : n = 16 := by
      have := hm
      simp at this
      omega
    subst hn
    simp only [Bool.and_eq_true] at h
    intro hmem
    have := List.all_eq_true.mp h.1.2 _ hmem
    simp at this
  · rw [if_neg h] at hm
    simp at hm

theorem cardMatch_none_of_head {c : Char} (hc : c.isDigit = false) (w : Bool)
    (rest : List Char) : cardMatch w (c :: rest) = none := by
  unfold cardMatch
  have htake : (c :: rest).take 16 = c :: rest.take 15 := rfl
  rw [htake]
  have : ((c :: rest.take 15).all Char.isDigit) = false := by
    simp [hc]
  simp [this]

theorem firstSome_eq_some {f : Nat → Option Nat} :
    ∀ {N a : Nat}, firstSome f N = some a → ∃ k, 1 ≤ k ∧ k ≤ N ∧ f k = some a := by
  intro N
  induction N with
  | zero => intro a h; simp [firstSome] at h
  | succ N ih =>
    intro a h
    unfold firstSome at h
    cases hf : f (N + 1) with
    | some x =>
      rw [hf] at h
      exact ⟨N + 1, by omega, le_refl _, by rw [hf, ← h]⟩
    | none =>
      rw [hf] at h
      obtain ⟨k, h1, h2, h3⟩ := ih h
      exact ⟨k, h1, by omega, h3⟩

theorem firstSome_eq_none {f : Nat → Option Nat} :
    ∀ {N : Nat}, (∀ k, 1 ≤ k → k ≤ N → f k = none) → firstSome f N = none := by
  intro N
  induction N with
  | zero => intro _; rfl
  | succ N ih =>
    intro h
    unfold firstSome
    rw [h (N + 1) (by omega) (le_refl _)]
    exact ih fun k h1 h2 => h k h1 (by omega)

theorem emailMatch_inv {w : Bool} {l : List Char} {n : Nat}
    (h : emailMatch w l = some n) :
    ∃ k j m l2 l4,
      1 ≤ k ∧ k ≤ (l.takeWhile localClass).length ∧ l.drop k = '@' :: l2 ∧
      1 ≤ j ∧ j ≤ (l2.takeWhile domainClass).length ∧ l2.drop j = '.' :: l4 ∧
      2 ≤ m ∧ m ≤ (l4.takeWhile tldClass).length ∧
      n = k + 1 + j + 1 + m := by
  cases l with
  | nil => simp [emailMatch] at h
  | cons c rest =>
    have hstep : emailMatch w (c :: rest) =
        (if w == isWordChar c then none
         else
           firstSome (fun k =>
             match (c :: rest).drop k with
             | '@' :: l2 =>
               firstSome (fun j =>
                 match l2.drop j with
                 | '.' :: l4 =>
                   firstSome (fun m =>
                     if 2 ≤ m && tailBoundary ((l4.take m).getLastD '.') (l4.drop m) then
                       some (k + 1 + j + 1 + m)
                     else none) (l4.takeWhile tldClass).length
                 | _ => none) (l2.takeWhile domainClass).length
             | _ => none) ((c :: rest).takeWhile localClass).length) := rfl
    rw [hstep] at h
    by_cases hb : (w == isWordChar c) = true
    · rw [if_pos hb] at h; simp at h
    · rw [if_neg hb] at h
      obtain ⟨k, hk1, hk2, hfk⟩ := firstSome_eq_some h
      split at hfk
      case _ l2 heqk =>
        obtain ⟨j, hj1, hj2, hfj⟩ := firstSome_eq_some hfk
        split at hfj
        case _ l4 heqj =>
          obtain ⟨m, _, hm2, hfm⟩ := firstSome_eq_some hfj
          split at hfm
          case isTrue hg =>
            simp only [Bool.and_eq_true, decide_eq_true_eq] at hg
            have hn : n = k + 1 + j + 1 + m := by
              have := hfm
              simp at this
              omega
            exact ⟨k, j, m, l2, l4, hk1, hk2, heqk, hj1, hj2, heqj, hg.1, hm2, hn⟩
          case isFalse => simp at hfm
        case _ => simp at hfj
      case _ => simp at hfk

theorem emailMatch_ne_some_zero (w : Bool) (l : List Char) : emailMatch w l ≠ some 0 := by
  intro h
  obtain ⟨k, j, m, l2, l4, hk1, _, _, hj1, _, _, hm1, _, hn⟩ := emailMatch_inv h
  omega

theorem length_takeWhile_le_length (p : Char → Bool) (l : List Char) :
    (l.takeWhile p).length ≤ l.length := by
  have := congrArg List.length (List.takeWhile_append_dropWhile p l)
  rw [List.length_append] at this
  omega

theorem mem_take_of_le_takeWhile {p : Char → Bool} {l : List Char} {k : Nat} {c : Char}
    (hk : k ≤ (l.takeWhile p).length) (hc : c ∈ l.take k) : p c = true := by
  have hsplit : l.take k = (l.takeWhile p).take k := by
    conv_lhs => rw [← List.takeWhile_append_dropWhile p l]
    rw [List.take_append_of_le_length hk]
  rw [hsplit] at hc
  exact List.mem_takeWhile_imp (List.take_subset k _ hc)

theorem emailMatch_not_bracket {w : Bool} {l : List Char} {n : Nat}
    (hm : emailMatch w l = some n) : '[' ∉ l.take n := by
  obtain ⟨k, j, m, l2, l4, _, hk2, hdk, _, hj2, hdj, _, hm2, hn⟩ := emailMatch_inv hm
  intro hmem
  have hkl : k ≤ l.length :=
    le_trans hk2 (length_takeWhile_le_length _ _)
  have htn : l.take n = l.take k ++ ('@' :: (l2.take j ++ ('.' :: l4.take m))) := by
    rw [show n = k + (1 + (j + (1 + m))) from by omega]
    rw [List.take_add, hdk]
    rw [show (1 + (j + (1 + m))) = (j + (1 + m)) + 1 from by omega]
    rw [List.take_succ_cons]
    rw [List.take_add, hdj]
    rw [show 1 + m = m + 1 from by omega]
    rw [List.take_succ_cons]
  rw [htn] at hmem
  rcases List.mem_append.mp hmem with h1 | h1
  · have := mem_take_of_le_takeWhile hk2 h1
    simp [localClass] at this
  · rcases List.mem_cons.mp h1 with h2 | h2
    · exact absurd h2 (by decide)
    · rcases List.mem_append.mp h2 with h3 | h3
      · have := mem_take_of_le_takeWhile hj2 h3
        simp [domainClass] at this
      · rcases List.mem_cons.mp h3 with h4 | h4
        · exact absurd h4 (by decide)
        · have := mem_take_of_le_takeWhile hm2 h4
          simp [tldClass] at this

theorem emailMatch_none_of_no_at {w : Bool} {l : List Char}
    (h : '@' ∉ (l.drop 1).take (l.takeWhile localClass).length) :
    emailMatch w l = none := by
  cases l with
  | nil => rfl
  | cons c rest =>
    have hstep : emailMatch w (c :: rest) =
        (if w == isWordChar c then none
         else
           firstSome (fun k =>
             match (c :: rest).drop k with
             | '@' :: l2 =>
               firstSome (fun j =>
                 match l2.drop j with
                 | '.' :: l4 =>
                   firstSome (fun m =>
                     if 2 ≤ m && tailBoundary ((l4.take m).getLastD '.') (l4.drop m) then
                       some (k + 1 + j + 1 + m)
                     else none) (l4.takeWhile tldClass).length
                 | _ => none) (l2.takeWhile domainClass).length
             | _ => none) ((c :: rest).takeWhile localClass).length) := rfl
    rw [hstep]
    by_cases hb : (w == isWordChar c) = true
    · rw [if_pos hb]
    · rw [if_neg hb]
      apply firstSome_eq_none
      intro k h1 h2
      split
      case _ l2 heq =>
        exfalso
        apply h
        have hat : (c :: rest)[k]? = some '@' := by
          rw [← List.head?_drop, heq]
          rfl
        have hgoal : ((((c :: rest).drop 1).take
            ((c :: rest).takeWhile localClass).length))[k - 1]? = some '@' := by
          rw [List.getElem?_take, if_pos (by omega)]
          rw [List.getElem?_drop]
          rw [show 1 + (k - 1) = k from by omega]
          exact hat
        exact List.getElem?_mem hgoal
      case _ => rfl

/-! ### The SSN token survives the card and email passes -/

theorem takeWhile_append_of_lt {p : Char → Bool} :
    ∀ {s : List Char} (b : List Char), (s.takeWhile p).length < s.length →
      (s ++ b).takeWhile p = s.takeWhile p := by
  intro s
  induction s with
  | nil => intro b h; simp at h
  | cons c s2 ih =>
    intro b h
    rw [List.cons_append, List.takeWhile_cons, List.takeWhile_cons]
    cases hp : p c with
    | false => simp
    | true =>
      simp only [if_pos]
      have hlen : (s2.takeWhile p).length < s2.length := by
        rw [List.takeWhile_cons, hp] at h
        simp only [if_pos, List.length_cons] at h
        omega
      rw [ih b hlen]

theorem emailMatch_none_append {w : Bool} {s : List Char} (b : List Char)
    (hrun : (s.takeWhile localClass).length < s.length)
    (hat : '@' ∉ (s.drop 1).take (s.takeWhile localClass).length) :
    emailMatch w (s ++ b) = none := by
  apply emailMatch_none_of_no_at
  rw [takeWhile_append_of_lt b hrun]
  cases s with
  | nil => simp at hrun
  | cons c s2 =>
    rw [List.cons_append]
    have hdrop : ((c :: (s2 ++ b)).drop 1) = s2 ++ b := rfl
    rw [hdrop]
    have hL : ((c :: s2).takeWhile localClass).length ≤ s2.length := by
      simp only [List.length_cons] at hrun
      omega
    rw [List.take_append_of_le_length hL]
    exact hat

theorem card_pass_copies_token (repl : List Char) (w : Bool) (b : List Char) :
    reSubW cardMatch repl w ("SSN_REDACTED]".data ++ b) =
      ((reSubW cardMatch repl false b).1,
        "SSN_REDACTED]".data ++ (reSubW cardMatch repl false b).2) := by
  apply reSubW_append_none
  · intro i w3 hi
    have hlen : ("SSN_REDACTED]".data).length = 13 := rfl
    rw [hlen] at hi
    interval_cases i <;> exact cardMatch_none_of_head (by decide) _ _
  · intro hcon
    exact absurd hcon (by decide)
  · intro d hd
    have h1 : ("SSN_REDACTED]".data).getLast? = some ']' := by decide
    rw [h1] at hd
    have h2 : ']' = d := Option.some.inj hd
    rw [← h2]
    decide

theorem email_pass_copies_token (repl : List Char) (w : Bool) (b : List Char) :
    reSubW emailMatch repl w ("SSN_REDACTED]".data ++ b) =
      ((reSubW emailMatch repl false b).1,
        "SSN_REDACTED]".data ++ (reSubW emailMatch repl false b).2) := by
  apply reSubW_append_none
  · intro i w3 hi
    have hlen : ("SSN_REDACTED]".data).length = 13 := rfl
    rw [hlen] at hi
    interval_cases i <;> exact emailMatch_none_append b (by decide) (by decide)
  · intro hcon
    exact absurd hcon (by decide)
  · intro d hd
    have h1 : ("SSN_REDACTED]".data).getLast? = some ']' := by decide
    rw [h1] at hd
    have h2 : ']' = d := Option.some.inj hd
    rw [← h2]
    decide

theorem card_keeps_ssn_token {l : List Char} (repl : List Char)
    (h : containsSub "[SSN_REDACTED]".data l = true) :
    containsSub "[SSN_REDACTED]".data (reSubW cardMatch repl false l).2 = true := by
  obtain ⟨a, b, hab⟩ := exists_of_containsSub h
  exact reSubW_keeps_token cardMatch_ne_some_zero
    (fun w l2 n hm => cardMatch_not_bracket hm)
    (card_pass_copies_token repl)
    l.length l false a b (le_refl _) hab

theorem email_keeps_ssn_token {l : List Char} (repl : List Char)
    (h : containsSub "[SSN_REDACTED]".data l = true) :
    containsSub "[SSN_REDACTED]".data (reSubW emailMatch repl false l).2 = true := by
  obtain ⟨a, b, hab⟩ := exists_of_containsSub h
  exact reSubW_keeps_token emailMatch_ne_some_zero
    (fun w l2 n hm => emailMatch_not_bracket hm)
    (email_pass_copies_token repl)
    l.length l false a b (le_refl _) hab

/-! ### Claims about the guardrail filter -/

/-- Claim C3 (counterexample): `"x123-45-6789"` contains the substring
`"123-45-6789"`, yet the guardrail returns action `ALLOWED`, the filtered
text still contains the raw SSN and no `[SSN_REDACTED]` token appears —
the regex `\b` word boundary rejects an occurrence adjacent to a word
character. -/
theorem apply_guardrails_misses_embedded_ssn :
    containsSub "123-45-6789".data "x123-45-6789".data = true ∧
    (apply_guardrails "x123-45-6789").action = "ALLOWED" ∧
    (apply_guardrails "x123-45-6789").filtered_text = "x123-45-6789" ∧
    containsSub "[SSN_REDACTED]".data (apply_guardrails "x123-45-6789").filtered_text.data
      = false ∧
    containsSub "123-45-6789".data (apply_guardrails "x123-45-6789").filtered_text.data
      = true := by
  decide

/-- Claim C3 (amended): for every ASCII text in which `"123-45-6789"`
occurs not immediately preceded or followed by a word character (letter,
digit or underscore), the guardrail returns action `FILTERED` and the
filtered text contains `"[SSN_REDACTED]"`.  Occurrences adjacent to word
characters do not match the `\b`-delimited pattern, are not redacted, and
may remain in the output.  The ASCII hypothesis restricts the statement to
the domain on which the embedded matchers coincide with Python's `re`
(Python's Unicode `\b` also treats non-ASCII letters as word
characters). -/
theorem apply_guardrails_redacts_bounded_ssn (t : String) (u v : List Char)
    (_hascii : ∀ c ∈ t.data, isAsciiChar c = true)
    (hsplit : t.data = u ++ "123-45-6789".data ++ v)
    (hu : ∀ c, u.getLast? = some c → isWordChar c = false)
    (hv : ∀ c, v.head? = some c → isWordChar c = false) :
    (apply_guardrails t).action = "FILTERED" ∧
    containsSub "[SSN_REDACTED]".data (apply_guardrails t).filtered_text.data = true := by
  have h1 : (reSub ssnMatch "[SSN_REDACTED]".data t.data).1 ≠ [] := by
    show (reSubW ssnMatch "[SSN_REDACTED]".data false t.data).1 ≠ []
    rw [hsplit]
    exact ssn_scan_finds u false v (fun _ => rfl) hu hv
  have hE1 : (reSub ssnMatch "[SSN_REDACTED]".data t.data).1.isEmpty = false := by
    cases hc : (reSub ssnMatch "[SSN_REDACTED]".data t.data).1 with
    | nil => exact absurd hc h1
    | cons x xs => rfl
  have htok1 : containsSub "[SSN_REDACTED]".data
      (reSub ssnMatch "[SSN_REDACTED]".data t.data).2 = true :=
    reSubW_matches_token ssnMatch_ne_some_zero t.data.length t.data false (le_refl _) h1
  constructor
  · simp only [apply_guardrails, hE1, Bool.false_eq_true, if_neg, not_false_iff]
    cases hc : (reSub ssnMatch "[SSN_REDACTED]".data t.data).1 with
    | nil => exact absurd hc h1
    | cons x xs => simp [hc]
  · simp only [apply_guardrails, hE1, Bool.false_eq_true, if_neg, not_false_iff]
    have htok2 : containsSub "[SSN_REDACTED]".data
        (if (reSub cardMatch "[CARD_REDACTED]".data
              (reSub ssnMatch "[SSN_REDACTED]".data t.data).2).1.isEmpty = true then
          (reSub ssnMatch "[SSN_REDACTED]".data t.data).2
        else (reSub cardMatch "[CARD_REDACTED]".data
              (reSub ssnMatch "[SSN_REDACTED]".data t.data).2).2) = true := by
      by_cases hc2 : (reSub cardMatch "[CARD_REDACTED]".data
          (reSub ssnMatch "[SSN_REDACTED]".data t.data).2).1.isEmpty = true
      · rw [if_pos hc2]
        exact htok1
      · rw [if_neg hc2]
        exact card_keeps_ssn_token "[CARD_REDACTED]".data htok1
    by_cases hc3 : (reSub emailMatch "[EMAIL_REDACTED]".data
        (if (reSub cardMatch "[CARD_REDACTED]".data
              (reSub ssnMatch "[SSN_REDACTED]".data t.data).2).1.isEmpty = true then
          (reSub ssnMatch "[SSN_REDACTED]".data t.data).2
        else (reSub cardMatch "[CARD_REDACTED]".data
              (reSub ssnMatch "[SSN_REDACTED]".data t.data).2).2)).1.isEmpty = true
    · rw [if_pos hc3]
      exact htok2
    · rw [if_neg hc3]
      exact email_keeps_ssn_token "[EMAIL_REDACTED]".data htok2

/-- Claim C3 witness: the amended claim applied at the concrete text
`"My SSN is 123-45-6789"`, whose SSN occurrence is word-bounded. -/
theorem apply_guardrails_redacts_bounded_ssn_witness :
    (apply_guardrails "My SSN is 123-45-6789").action = "FILTERED" ∧
    containsSub "[SSN_REDACTED]".data
      (apply_guardrails "My SSN is 123-45-6789").filtered_text.data = true :=
  apply_guardrails_redacts_bounded_ssn "My SSN is 123-45-6789" "My SSN is ".data []
    (by decide)
    (by decide)
    (fun c hc => by
      have h2 : ' ' = c := Option.some.inj hc
      rw [← h2]; decide)
    (fun c hc => by simp at hc)

/-- Claim C7: an ASCII text in which none of the three patterns matches
passes the guardrail unchanged with action `ALLOWED` and no redactions;
and in general the action is `FILTERED` exactly when the redaction list is
non-empty.  The ASCII hypothesis restricts the identity part to the domain
on which the embedded matchers coincide with Python's `re` (Python's
Unicode `\d` matches non-ASCII decimal digits the ASCII model cannot
see); the `FILTERED` ↔ non-empty-redactions equivalence is structural and
holds for every input. -/
theorem apply_guardrails_clean_identity (t : String)
    (_hascii : ∀ c ∈ t.data, isAsciiChar c = true)
    (h1 : (reSub ssnMatch "[SSN_REDACTED]".data t.data).1 = [])
    (h2 : (reSub cardMatch "[CARD_REDACTED]".data t.data).1 = [])
    (h3 : (reSub emailMatch "[EMAIL_REDACTED]".data t.data).1 = []) :
    (apply_guardrails t).action = "ALLOWED" ∧
    (apply_guardrails t).filtered_text = t ∧
    (apply_guardrails t).redactions = [] ∧
    ∀ s : String, (apply_guardrails s).action = "FILTERED" ↔
      (apply_guardrails s).redactions ≠ [] := by
  refine ⟨?_, ?_, ?_, ?_⟩
  · simp [apply_guardrails, h1, h2, h3]
  · simp [apply_guardrails, h1, h2, h3]
  · simp [apply_guardrails, h1, h2, h3]
  · intro s
    simp only [apply_guardrails]
    cases hc : (reSub ssnMatch "[SSN_REDACTED]".data s.data).1 ++
        (reSub cardMatch "[CARD_REDACTED]".data
          (if (reSub ssnMatch "[SSN_REDACTED]".data s.data).1.isEmpty = true then s.data
            else (reSub ssnMatch "[SSN_REDACTED]".data s.data).2)).1 ++
        (reSub emailMatch "[EMAIL_REDACTED]".data
          (if (reSub cardMatch "[CARD_REDACTED]".data
                (if (reSub ssnMatch "[SSN_REDACTED]".data s.data).1.isEmpty = true then s.data
                  else (reSub ssnMatch "[SSN_REDACTED]".data s.data).2)).1.isEmpty = true then
            (if (reSub ssnMatch "[SSN_REDACTED]".data s.data).1.isEmpty = true then s.data
              else (reSub ssnMatch "[SSN_REDACTED]".data s.data).2)
          else (reSub cardMatch "[CARD_REDACTED]".data
                (if (reSub ssnMatch "[SSN_REDACTED]".data s.data).1.isEmpty = true then s.data
                  else (reSub ssnMatch "[SSN_REDACTED]".data s.data).2)).2)).1 with
    | nil => simp [hc]
    | cons x xs => simp [hc]

/-- Claim C7 witness: the identity pass applied at the concrete clean text
`"hello world"`. -/
theorem apply_guardrails_clean_identity_witness :
    (apply_guardrails "hello world").action = "ALLOWED" ∧
    (apply_guardrails "hello world").filtered_text = "hello world" ∧
    (apply_guardrails "hello world").redactions = [] ∧
    ∀ s : String, (apply_guardrails s).action = "FILTERED" ↔
      (apply_guardrails s).redactions ≠ [] :=
  apply_guardrails_clean_identity "hello world" (by decide) (by decide) (by decide)
    (by decide)

/-! ### Claims about the task orchestrators -/

/-- Claim C1 (counterexample): the sentiment orchestrator's result dict on
a successful call carries only the analysis text and the model id — it has
no input/output token count fields at all, so the claimed uniform
`AnalysisResult` shape does not hold for every orchestrator. -/
theorem analyze_document_sentiment_lacks_tokens :
    (analyze_document_sentiment ⟨"f.pdf", [1, 2, 3], 0⟩ "m"
        (fun _ => .ok ⟨["S"], 10, 5, "end_turn"⟩)).1 =
      .ok { analysis := some "S", model := some "m" } ∧
    resultInputTokens (analyze_document_sentiment ⟨"f.pdf", [1, 2, 3], 0⟩ "m"
        (fun _ => .ok ⟨["S"], 10, 5, "end_turn"⟩)) = none ∧
    ({ analysis := some "S", model := some "m" } : PyResult).input_tokens = none ∧
    ({ analysis := some "S", model := some "m" } : PyResult).output_tokens = none := by
  exact ⟨rfl, rfl, rfl, rfl⟩

/-- Claim C1 (amended): on every successful call the two summarize
orchestrators return the primary text, the model id, both token counts and
the stop reason; the Q&A orchestrator returns the primary text, the model
id and both token counts but no stop reason; and the sentiment and topic
orchestrators return only the primary text and the model id. -/
theorem orchestrator_result_fields (f : File) (model q style prompt : String)
    (nt : Nat) (g : Bool) (resp : RawResponse) (t : String) (ts : List String)
    (hresp : resp.contentTexts = t :: ts) :
    (∃ r, (summarize_pdf_document f style model (fun _ => .ok resp)).1 = .ok r ∧
      r.summary = some t ∧ r.model = some model ∧
      r.input_tokens = some resp.inputTokens ∧ r.output_tokens = some resp.outputTokens ∧
      r.stop_reason = some resp.stopReason) ∧
    (∃ r, (summarize_pdf_with_converse f prompt model (fun _ => .ok resp)).1 = .ok r ∧
      r.summary = some t ∧ r.model = some model ∧
      r.input_tokens = some resp.inputTokens ∧ r.output_tokens = some resp.outputTokens ∧
      r.stop_reason = some resp.stopReason) ∧
    (∃ r, (analyze_document_sentiment f model (fun _ => .ok resp)).1 = .ok r ∧
      r.analysis = some t ∧ r.model = some model ∧
      r.input_tokens = none ∧ r.output_tokens = none ∧ r.stop_reason = none) ∧
    (∃ r, (extract_key_topics f nt model (fun _ => .ok resp)).1 = .ok r ∧
      r.topics = some t ∧ r.model = some model ∧
      r.input_tokens = none ∧ r.output_tokens = none ∧ r.stop_reason = none) ∧
    (∃ r, (answer_questions_about_document f q model g (fun _ => .ok resp)).1 = .ok r ∧
      (∃ a, r.answer = some a) ∧ r.model = some model ∧
      r.input_tokens = some resp.inputTokens ∧ r.output_tokens = some resp.outputTokens ∧
      r.stop_reason = none) := by
  refine ⟨?_, ?_, ?_, ?_, ?_⟩
  · have hstep : (summarize_pdf_document f style model (fun _ => .ok resp)).1 =
        match resp.contentTexts with
        | [] => .error "Error summarizing PDF document: list index out of range"
        | summary :: _ =>
          .ok { summary := some summary, model := some model,
                input_tokens := some resp.inputTokens,
                output_tokens := some resp.outputTokens,
                stop_reason := some resp.stopReason } := rfl
    refine ⟨{ summary := some t, model := some model,
              input_tokens := some resp.inputTokens,
              output_tokens := some resp.outputTokens,
              stop_reason := some resp.stopReason }, ?_, rfl, rfl, rfl, rfl, rfl⟩
    rw [hstep, hresp]
  · have hstep : (summarize_pdf_with_converse f prompt model (fun _ => .ok resp)).1 =
        match resp.contentTexts with
        | [] => .error "Error with custom PDF prompt: list index out of range"
        | summary :: _ =>
          .ok { summary := some summary, model := some model,
                input_tokens := some resp.inputTokens,
                output_tokens := some resp.outputTokens,
                stop_reason := some resp.stopReason } := rfl
    refine ⟨{ summary := some t, model := some model,
              input_tokens := some resp.inputTokens,
              output_tokens := some resp.outputTokens,
              stop_reason := some resp.stopReason }, ?_, rfl, rfl, rfl, rfl, rfl⟩
    rw [hstep, hresp]
  · have hstep : (analyze_document_sentiment f model (fun _ => .ok resp)).1 =
        match resp.contentTexts with
        | [] => .error "Error analyzing sentiment: list index out of range"
        | analysis :: _ => .ok { analysis := some analysis, model := some model } := rfl
    refine ⟨{ analysis := some t, model := some model }, ?_, rfl, rfl, rfl, rfl, rfl⟩
    rw [hstep, hresp]
  · have hstep : (extract_key_topics f nt model (fun _ => .ok resp)).1 =
        match resp.contentTexts with
        | [] => .error "Error extracting topics: list index out of range"
        | topics :: _ => .ok { topics := some topics, model := some model } := rfl
    refine ⟨{ topics := some t, model := some model }, ?_, rfl, rfl, rfl, rfl, rfl⟩
    rw [hstep, hresp]
  · have hstep : (answer_questions_about_document f q model g (fun _ => .ok resp)).1 =
        match resp.contentTexts with
        | [] => .error "Error answering question: list index out of range"
        | answer :: _ =>
          .ok { answer := some (if g then (apply_guardrails answer).filtered_text else answer),
                question := some (qa_request f q g model).2, model := some model,
                input_tokens := some resp.inputTokens,
                output_tokens := some resp.outputTokens } := rfl
    refine ⟨{ answer := some (if g then (apply_guardrails t).filtered_text else t),
              question := some (qa_request f q g model).2, model := some model,
              input_tokens := some resp.inputTokens,
              output_tokens := some resp.outputTokens },
            ?_, ⟨_, rfl⟩, rfl, rfl, rfl, rfl⟩
    rw [hstep, hresp]

/-- Claim C1 witness: the field shapes evaluated on a concrete document,
response and model id. -/
theorem orchestrator_result_fields_witness :
    (∃ r, (summarize_pdf_document ⟨"f.pdf", [1], 0⟩ "concise" "m"
        (fun _ => .ok ⟨["X"], 10, 5, "end_turn"⟩)).1 = .ok r ∧
      r.summary = some "X" ∧ r.model = some "m" ∧
      r.input_tokens = some 10 ∧ r.output_tokens = some 5 ∧
      r.stop_reason = some "end_turn") ∧
    (∃ r, (summarize_pdf_with_converse ⟨"f.pdf", [1], 0⟩ "p" "m"
        (fun _ => .ok ⟨["X"], 10, 5, "end_turn"⟩)).1 = .ok r ∧
      r.summary = some "X" ∧ r.model = some "m" ∧
      r.input_tokens = some 10 ∧ r.output_tokens = some 5 ∧
      r.stop_reason = some "end_turn") ∧
    (∃ r, (analyze_document_sentiment ⟨"f.pdf", [1], 0⟩ "m"
        (fun _ => .ok ⟨["X"], 10, 5, "end_turn"⟩)).1 = .ok r ∧
      r.analysis = some "X" ∧ r.model = some "m" ∧
      r.input_tokens = none ∧ r.output_tokens = none ∧ r.stop_reason = none) ∧
    (∃ r, (extract_key_topics ⟨"f.pdf", [1], 0⟩ 5 "m"
        (fun _ => .ok ⟨["X"], 10, 5, "end_turn"⟩)).1 = .ok r ∧
      r.topics = some "X" ∧ r.model = some "m" ∧
      r.input_tokens = none ∧ r.output_tokens = none ∧ r.stop_reason = none) ∧
    (∃ r, (answer_questions_about_document ⟨"f.pdf", [1], 0⟩ "q" "m" false
        (fun _ => .ok ⟨["X"], 10, 5, "end_turn"⟩)).1 = .ok r ∧
      (∃ a, r.answer = some a) ∧ r.model = some "m" ∧
      r.input_tokens = some 10 ∧ r.output_tokens = some 5 ∧ r.stop_reason = none) :=
  orchestrator_result_fields ⟨"f.pdf", [1], 0⟩ "m" "q" "concise" "p" 5 false
    ⟨["X"], 10, 5, "end_turn"⟩ "X" [] rfl

/-- Claim C4: for the Q&A task with question `"My SSN is 123-45-6789"` and
guardrails enabled, the text part of the assembled request is exactly
`"Based on this document, answer: My SSN is [SSN_REDACTED]"` — it contains
the redaction token and never the raw SSN, for every document. -/
theorem qa_request_redacts_ssn (f : File) (model : String) :
    textParts (qa_request f "My SSN is 123-45-6789" true model).1.1 =
      ["Based on this document, answer: My SSN is [SSN_REDACTED]"] ∧
    (∀ s ∈ textParts (qa_request f "My SSN is 123-45-6789" true model).1.1,
      containsSub "[SSN_REDACTED]".data s.data = true ∧
      containsSub "123-45-6789".data s.data = false) := by
  have hq : apply_guardrails "My SSN is 123-45-6789" =
      ⟨"My SSN is [SSN_REDACTED]", ["123-45-6789"], "FILTERED"⟩ := by decide
  have hparts : textParts (qa_request f "My SSN is 123-45-6789" true model).1.1 =
      ["Based on this document, answer: My SSN is [SSN_REDACTED]"] := by
    simp only [qa_request, hq, textParts, buildDocRequest]
    rfl
  refine ⟨hparts, ?_⟩
  intro s hs
  rw [hparts] at hs
  rcases List.mem_singleton.mp hs with h
  subst h
  constructor
  · decide
  · decide

/-- Claim C4 witness: the redaction of the assembled request's text part,
evaluated on a concrete document. -/
theorem qa_request_redacts_ssn_witness :
    containsSub "[SSN_REDACTED]".data
      "Based on this document, answer: My SSN is [SSN_REDACTED]".data = true ∧
    containsSub "123-45-6789".data
      "Based on this document, answer: My SSN is [SSN_REDACTED]".data = false :=
  (qa_request_redacts_ssn ⟨"f.pdf", [1], 0⟩ "m").2
    "Based on this document, answer: My SSN is [SSN_REDACTED]"
    (by rw [(qa_request_redacts_ssn ⟨"f.pdf", [1], 0⟩ "m").1]
        exact List.mem_singleton.mpr rfl)

/-- Claim C5: when the remote client fails with a `ClientError`, every task
orchestrator fails as a whole with a single error wrapping the underlying
cause (`str(e)`), returning no partial result; the orchestrators call the
client exactly once and never retry. -/
theorem orchestrators_wrap_client_error (e : String) (f : File)
    (style prompt model q : String) (nt : Nat) (g : Bool) :
    (summarize_pdf_document f style model (fun _ => .error e)).1 =
      .error ("Bedrock API error: " ++ e) ∧
    (summarize_pdf_with_converse f prompt model (fun _ => .error e)).1 =
      .error ("Bedrock API error: " ++ e) ∧
    (analyze_document_sentiment f model (fun _ => .error e)).1 =
      .error ("Error analyzing sentiment: " ++ e) ∧
    (extract_key_topics f nt model (fun _ => .error e)).1 =
      .error ("Error extracting topics: " ++ e) ∧
    (answer_questions_about_document f q model g (fun _ => .error e)).1 =
      .error ("Error answering question: " ++ e) :=
  ⟨rfl, rfl, rfl, rfl, rfl⟩

/-- Claim C8: the four summary styles map to pairwise distinct non-empty
instruction strings, and every other style value falls back to the concise
template instead of failing. -/
theorem promptForStyle_contract :
    (promptForStyle "concise" ≠ "" ∧ promptForStyle "detailed" ≠ "" ∧
      promptForStyle "bullet-points" ≠ "" ∧ promptForStyle "executive" ≠ "") ∧
    (promptForStyle "concise" ≠ promptForStyle "detailed" ∧
      promptForStyle "concise" ≠ promptForStyle "bullet-points" ∧
      promptForStyle "concise" ≠ promptForStyle "executive" ∧
      promptForStyle "detailed" ≠ promptForStyle "bullet-points" ∧
      promptForStyle "detailed" ≠ promptForStyle "executive" ∧
      promptForStyle "bullet-points" ≠ promptForStyle "executive") ∧
    (∀ s : String, s ≠ "concise" → s ≠ "detailed" → s ≠ "bullet-points" →
      s ≠ "executive" → promptForStyle s = promptForStyle "concise") := by
  refine ⟨by decide, by decide, ?_⟩
  intro s h1 h2 h3 h4
  simp [promptForStyle, h1, h2, h3, h4]

/-- Claim C8 witness: an undefined style value (`"haiku"`) yields the
concise template. -/
theorem promptForStyle_contract_witness :
    promptForStyle "haiku" = promptForStyle "concise" :=
  promptForStyle_contract.2.2 "haiku" (by decide) (by decide) (by decide) (by decide)

/-- Claim C9: every orchestrator's request builder seeks to the start of
the file before reading, so the assembled request carries the full document
bytes, and building the request again on the file object returned by a
previous call yields an identical request (identical bytes). -/
theorem requests_read_full_document (f : File) (style prompt model q : String)
    (nt : Nat) (g : Bool) :
    (documentBytes (summarize_request f style model).1 = [f.content] ∧
      (summarize_request (summarize_request f style model).2 style model).1 =
        (summarize_request f style model).1) ∧
    (documentBytes (converse_request f prompt model).1 = [f.content] ∧
      (converse_request (converse_request f prompt model).2 prompt model).1 =
        (converse_request f prompt model).1) ∧
    (documentBytes (sentiment_request f model).1 = [f.content] ∧
      (sentiment_request (sentiment_request f model).2 model).1 =
        (sentiment_request f model).1) ∧
    (documentBytes (topics_request f nt model).1 = [f.content] ∧
      (topics_request (topics_request f nt model).2 nt model).1 =
        (topics_request f nt model).1) ∧
    (documentBytes (qa_request f q g model).1.1 = [f.content] ∧
      (qa_request (qa_request f q g model).1.2 q g model).1.1 =
        (qa_request f q g model).1.1) :=
  ⟨⟨rfl, rfl⟩, ⟨rfl, rfl⟩, ⟨rfl, rfl⟩, ⟨rfl, rfl⟩, ⟨rfl, rfl⟩⟩

end DocSummary
